import Mathlib

/-!
Verification of the static-cms proxy server core.

A shallow embedding, in Lean 4, of the proxy server's core: the JS string and
Node `path` primitives it relies on, the filesystem adapter (`src/middlewares/utils/fs.ts`),
the content-key utilities (`src/middlewares/utils/APIUtils.ts`), the Joi
validation layer (`src/middlewares/joi`), and the git middleware
(`src/middlewares/localGit/index.ts`) including its branch guard, mutex and
dispatcher.  Machine behaviour (async interleavings of the un-awaited rename
tasks in `commitEntry`) is modelled by an explicit scheduler over primitive
operations.  Theorems at the end settle the testable properties of the
specification against these definitions.
-/

namespace StaticCmsProxy

/-! ## JS string primitives

JS strings are modelled as Lean `String`s viewed as lists of characters
(`String.data`).  The handful of `String.prototype` methods the source uses
are embedded below with JS semantics.
-/

/-- JS `s.startsWith(t)`: `t` is a leading segment of `s`. -/
def jsStartsWith (s t : String) : Bool :=
  t.data.isPrefixOf s.data

/-- JS `s.endsWith(t)`: `t` is a trailing segment of `s`.
(`s.endsWith("")` is `true`, matching JS.) -/
def jsEndsWith (s t : String) : Bool :=
  t.data.isSuffixOf s.data

/-- JS `s.indexOf(c)` for a single character, over the character list:
index of the first occurrence, `-1` when absent. -/
def charIndexOf : List Char → Char → Option Nat
  | [], _ => none
  | a :: l, c => if a == c then some 0 else (charIndexOf l c).map (· + 1)

/-- JS `s.indexOf("/")` as used by `parseContentKey`: first index or `-1`. -/
def jsIndexOfChar (s : String) (c : Char) : Int :=
  match charIndexOf s.data c with
  | some i => (i : Int)
  | none => -1

/-- Clamp a JS slice index into `[0, n]`: negative indices count from the end. -/
def jsSliceIndex (n : Nat) (i : Int) : Nat :=
  if i < 0 then ((n : Int) + i).toNat else min i.toNat n

/-- JS `s.slice(start)` (one-argument form). -/
def jsSliceFrom (s : String) (start : Int) : String :=
  ⟨s.data.drop (jsSliceIndex s.data.length start)⟩

/-- JS `s.slice(start, stop)` (two-argument form). -/
def jsSlice (s : String) (start stop : Int) : String :=
  let a := jsSliceIndex s.data.length start
  let b := jsSliceIndex s.data.length stop
  ⟨(s.data.take b).drop a⟩

/-- Replace the first occurrence of the (non-empty) pattern `pat` in `s` by
`repl`: JS `s.replace(pat, repl)` with a string pattern.  When the pattern
does not occur, `s` is returned unchanged. -/
def jsReplaceFirstAux (pat repl : List Char) : List Char → List Char
  | [] => []
  | a :: l =>
    if pat.isPrefixOf (a :: l) then repl ++ (a :: l).drop pat.length
    else a :: jsReplaceFirstAux pat repl l

/-- JS `s.replace(pat, repl)` with a string pattern (first occurrence only). -/
def jsReplaceFirst (s pat repl : String) : String :=
  ⟨jsReplaceFirstAux pat.data repl.data s.data⟩

/-- Replace every occurrence of the non-empty pattern: JS
`s.replace(/pat/g, repl)` for a literal pattern.  The first argument is
fuel (at least the input length), making the recursion structural. -/
def jsReplaceAllAux (pat repl : List Char) : Nat → List Char → List Char
  | _, [] => []
  | 0, l => l
  | fuel + 1, a :: l =>
    if pat.isPrefixOf (a :: l) then
      repl ++ jsReplaceAllAux pat repl fuel (((a :: l).drop (pat.length - 1)).tail)
    else a :: jsReplaceAllAux pat repl fuel l

/-- JS `s.replace(/pat/g, repl)` for a literal (backslash-escaped) pattern. -/
def jsReplaceAll (s pat repl : String) : String :=
  ⟨jsReplaceAllAux pat.data repl.data s.data.length s.data⟩

/-- Whether `pat` occurs as a contiguous block anywhere in the list
(substring containment, used to inspect response messages). -/
def containsSub (pat : List Char) : List Char → Bool
  | [] => pat.isEmpty
  | a :: l => pat.isPrefixOf (a :: l) || containsSub pat l

/-- JS truthiness of an optional string field: `undefined` and `""` are falsy. -/
def jsTruthyStr : Option String → Bool
  | none => false
  | some s => s ≠ ""

/-! ## Node `path` (posix) -/

/-- Split a character list at every occurrence of `c` (the groups between
separators, like `String.splitOn` with a one-character separator). -/
def splitOnChar (c : Char) : List Char → List (List Char)
  | [] => [[]]
  | a :: l =>
    if a == c then [] :: splitOnChar c l
    else
      match splitOnChar c l with
      | [] => [[a]]
      | g :: gs => (a :: g) :: gs

/-- The `/`-separated pieces of a path string. -/
def slashPieces (s : String) : List String :=
  (splitOnChar '/' s.data).map fun l => String.mk l

/-- Concatenate path pieces with `/` separators. -/
def joinWithSlash : List String → String
  | [] => ""
  | [a] => a
  | a :: rest => a ++ "/" ++ joinWithSlash rest

/-- One step of posix path normalization: process a segment against the stack
of segments accepted so far (held in reverse). `".."` pops a real segment, is
dropped at the root of an absolute path, and accumulates for relative paths. -/
def normSeg (absolute : Bool) (acc : List String) (seg : String) : List String :=
  if seg = "" ∨ seg = "." then acc
  else if seg = ".." then
    match acc with
    | [] => if absolute then [] else [".."]
    | a :: rest => if a = ".." then ".." :: a :: rest else rest
  else seg :: acc

/-- Node `path.posix.normalize`, restricted to the behaviour the proxy
exercises: collapse `"//"`, resolve `"."` and `".."`, keep a leading `"/"`,
and keep a trailing `"/"` when the input had one and the result is a proper
directory path. -/
def pathNormalize (s : String) : String :=
  let absolute := jsStartsWith s "/"
  let trailing := s ≠ "/" ∧ jsEndsWith s "/"
  let segs := (slashPieces s).foldl (normSeg absolute) []
  let core := joinWithSlash segs.reverse
  let base :=
    if absolute then "/" ++ core
    else if core = "" then "." else core
  if trailing ∧ core ≠ "" then base ++ "/" else base

/-- Node `path.posix.join(a, b)`: drop empty arguments, join the rest with
`"/"`, normalize; the join of nothing is `"."`. -/
def pathJoin (a b : String) : String :=
  if a = "" ∧ b = "" then "."
  else if a = "" then pathNormalize b
  else if b = "" then pathNormalize a
  else pathNormalize (a ++ "/" ++ b)

/-- Node `path.posix.dirname`. -/
def pathDirname (s : String) : String :=
  match charIndexOf s.data.reverse '/' with
  | none => "."
  | some i =>
    let cut := s.data.length - 1 - i
    if cut = 0 then "/" else ⟨s.data.take cut⟩

/-- Node `path.posix.basename`. -/
def pathBasename (s : String) : String :=
  match charIndexOf s.data.reverse '/' with
  | none => s
  | some i => ⟨s.data.drop (s.data.length - i)⟩

/-! ## Path traversal check (`src/middlewares/joi/customValidators.ts`)

The custom Joi validator resolves the candidate value against the repository
root with `path.join` and accepts it iff the result `startsWith` the resolved
root.  `pathTraversalCheck` is that acceptance condition. -/

/-- The acceptance condition of the `pathTraversal` custom validator:
`path.join(repoPath, value).startsWith(path.join(repoPath, ''))`. -/
def pathTraversalCheck (repoPath value : String) : Bool :=
  jsStartsWith (pathJoin repoPath value) (pathJoin repoPath "")

/-- Spec-side notion, named after the specification's words: a resolved path
"stays under" (is a descendant of, or equal to) the resolved repository
root. Used only to compare the implemented check against the spec's claim. -/
def resolvesUnderRoot (root p : String) : Bool :=
  p == root || jsStartsWith p (root ++ "/")

/-! ## Content keys (`src/middlewares/utils/APIUtils.ts`) -/

/-- `generateContentKey(collectionName, slug)` returns
`` `${collectionName}/${slug}` ``. -/
def generateContentKey (collectionName slug : String) : String :=
  collectionName ++ "/" ++ slug

/-- Result shape of `parseContentKey`. -/
structure ParsedContentKey where
  collection : String
  slug : String
  deriving Repr, DecidableEq

/-- `parseContentKey(contentKey)`: split at the first `'/'` via `indexOf`
and two `slice` calls. -/
def parseContentKey (contentKey : String) : ParsedContentKey :=
  let index := jsIndexOfChar contentKey '/'
  { collection := jsSlice contentKey 0 index
    slug := jsSliceFrom contentKey (index + 1) }

/-! ## Filesystem model

The on-disk state is a tree: files carry their content, directories carry a
(name, node) association list in dirent order, and `unreadable` stands for a
directory whose `readdir` fails (the transient-error case `listFiles`
tolerates). Paths are the joined strings the source passes around, resolved
by splitting on `/`. -/

inductive FsTree where
  | file (content : String) : FsTree
  | dir (entries : List (String × FsTree)) : FsTree
  | unreadable : FsTree

/-- `dirent.isDirectory()` for a child node. -/
def FsTree.isDir : FsTree → Bool
  | .file _ => false
  | .dir _ => true
  | .unreadable => true

/-- Split a joined path string into its non-empty segments. -/
def pathSegs (p : String) : List String :=
  (slashPieces p).filter (fun s => !(s == ""))

/-- Resolve a segment list in the tree (the node reached, if any). -/
def lookupNode : FsTree → List String → Option FsTree
  | t, [] => some t
  | FsTree.dir es, seg :: rest =>
    match es.lookup seg with
    | some t => lookupNode t rest
    | none => none
  | _, _ :: _ => none

/-- Replace the value bound to `seg` in a dirent association list. -/
def replaceAssoc (es : List (String × FsTree)) (seg : String) (node : FsTree) :
    List (String × FsTree) :=
  es.map (fun e => if e.1 = seg then (e.1, node) else e)

/-- Place `node` at the segment path, creating intermediate directories
(`mkdir -p` semantics); an intermediate non-directory is overwritten. -/
def insertNodeAt : FsTree → List String → FsTree → FsTree
  | _, [], node => node
  | t, seg :: rest, node =>
    let es := match t with | .dir es => es | _ => []
    match es.lookup seg with
    | some child => .dir (replaceAssoc es seg (insertNodeAt child rest node))
    | none => .dir (es ++ [(seg, insertNodeAt (.dir []) rest node)])

/-- Remove the node at the segment path (no-op when absent). -/
def removeNodeAt : FsTree → List String → FsTree
  | t, [] => t
  | FsTree.dir es, [seg] => .dir (es.filter (fun e => !(e.1 == seg)))
  | FsTree.dir es, seg :: rest =>
    match es.lookup seg with
    | some child => .dir (replaceAssoc es seg (removeNodeAt child rest))
    | none => .dir es
  | t, _ => t

/-! ## Filesystem adapter (`src/middlewares/utils/fs.ts`) -/

/-- The source's `FsItem` as constructed at runtime by `listFiles`:
`{ file: [res].filter(f => f.endsWith(extension))[0], isDirectory }`, where
the `file` field is `undefined` (here `none`) when the name fails the
extension filter. -/
structure FsItem where
  file : Option String
  isDirectory : Bool
  deriving Repr, DecidableEq

/-- `listFiles(dir, extension, depth)`: returns `[]` for `depth <= 0`;
otherwise reads the direct entries of `dir` (a failing `readdir` — missing
path, plain file, or unreadable directory — yields `[]` via the `catch`)
and produces one `FsItem` per dirent. Note the source does **not** recurse
into subdirectories. -/
def listFiles (root : FsTree) (dir : String) (extension : String) (depth : Int) :
    List FsItem :=
  if depth ≤ 0 then []
  else
    match lookupNode root (pathSegs dir) with
    | some (.dir es) =>
      es.map (fun e =>
        let res := pathJoin dir e.1
        { file := if jsEndsWith res extension then some res else none
          isDirectory := e.2.isDir })
    | _ => []

/-- `listRepoFiles(repoPath, folder, extension, depth)`: list
`path.join(repoPath, folder)`, keep items with a truthy `file`, and slice
the leading `repoPath.length + 1` characters off each path. -/
def listRepoFiles (root : FsTree) (repoPath folder extension : String)
    (depth : Int) : List FsItem :=
  let files := listFiles root (pathJoin repoPath folder) extension depth
  (files.filter (fun f => jsTruthyStr f.file)).map (fun f =>
    { file := some (jsSliceFrom (f.file.getD "") ((repoPath.length : Int) + 1))
      isDirectory := f.isDirectory })

/-- `writeFile(filePath, content)`: create parent directories, then write
(overwriting). Binary asset contents are modelled by their decoded string. -/
def writeFileFS (root : FsTree) (filePath content : String) : FsTree :=
  insertNodeAt root (pathSegs filePath) (.file content)

/-- `deleteFile(repoPath, filePath)`: unlink, swallowing any failure
(missing file, or a directory at that path, is a no-op). -/
def deleteFileFS (root : FsTree) (repoPath filePath : String) : FsTree :=
  let segs := pathSegs (pathJoin repoPath filePath)
  match lookupNode root segs with
  | some (.file _) => removeNodeAt root segs
  | _ => root

/-- `moveFile(from, to)`: `mkdir -p` on the destination's parent then
`fs.rename`; `none` models the thrown `ENOENT` when the source is missing. -/
def moveFileFS (root : FsTree) (fromP toP : String) : Option FsTree :=
  match lookupNode root (pathSegs fromP) with
  | some node => some (insertNodeAt (removeNodeAt root (pathSegs fromP)) (pathSegs toP) node)
  | none => none

/-- `move(from, to)`: move the file itself, then list every entry one level
under the source's directory (extension `''`, depth `100`) and move each to
`item.file.replace(sourceDir, destDir)` (first-occurrence string replace).
`none` models a thrown failure. -/
def moveFS (root : FsTree) (fromP toP : String) : Option FsTree :=
  match moveFileFS root fromP toP with
  | none => none
  | some r1 =>
    let sourceDir := pathDirname fromP
    let destDir := pathDirname toP
    let allFiles := listFiles r1 sourceDir "" 100
    allFiles.foldlM (fun r item =>
      let f := item.file.getD ""
      moveFileFS r f (jsReplaceFirst f sourceDir destDir)) r1

/-- `getUpdateDate(repoPath, filePath)`: the file's mtime, defaulting to
"now" when the stat fails. Timestamps are abstract: `none` is the default
"now". -/
def getUpdateDate (root : FsTree) (repoPath filePath : String) : Option Unit :=
  match lookupNode root (pathSegs (pathJoin repoPath filePath)) with
  | some (.file _) => some ()
  | _ => none

/-! ## Request payload records (`src/middlewares/types.ts` consumers)

Execution-level shapes of one data file and one asset, as `commitEntry`
consumes them.  An asset's decoded `Buffer` is modelled by its content
string. -/

structure DataFile where
  slug : String
  path : String
  raw : String
  newPath : Option String
  deriving Repr, DecidableEq

structure Asset where
  path : String
  content : String
  encoding : String
  deriving Repr, DecidableEq

/-! ## `commitEntry` under explicit scheduling (`src/middlewares/localGit/index.ts`)

`commitEntry` awaits the data-file writes and the asset writes, then — when
every data file has a truthy `newPath` — fires one `move` per data file
through `forEach` with an `async` callback, *without awaiting them*, and
immediately runs `git.add('.')` and `git.commit(...)`.  The un-awaited moves
race against the commit.  The model makes the race explicit: primitive
operations execute atomically, and a schedule decides, after the writes, at
each step whether the main continuation (`gitAdd`, `gitCommit`) or the
oldest pending move task runs; when the schedule is exhausted, the main
continuation finishes first and the pending tasks drain afterwards (every
promise eventually completes). -/

inductive Prim where
  | write (p c : String)
  | moveTask (fromP toP : String)
  | gitAdd
  | gitCommit (msg : String)
  deriving Repr, DecidableEq

def Prim.isWrite : Prim → Bool
  | .write _ _ => true
  | _ => false

def Prim.isMove : Prim → Bool
  | .moveTask _ _ => true
  | _ => false

/-- State of a `commitEntry` run: working tree, git index (what `add '.'`
staged), recorded commits, and the executed-operation trace. -/
structure RunState where
  fs : FsTree
  staged : FsTree
  commits : List (String × FsTree)
  trace : List Prim

/-- Execute one primitive operation.  A `moveTask` whose `move` throws is an
unhandled rejection of an un-awaited promise: it changes nothing else. -/
def execPrim (s : RunState) (p : Prim) : RunState :=
  match p with
  | .write fp c => { s with fs := writeFileFS s.fs fp c, trace := s.trace ++ [p] }
  | .moveTask a b => { s with fs := (moveFS s.fs a b).getD s.fs, trace := s.trace ++ [p] }
  | .gitAdd => { s with staged := s.fs, trace := s.trace ++ [p] }
  | .gitCommit m => { s with commits := s.commits ++ [(m, s.staged)], trace := s.trace ++ [p] }

/-- Execute a list of primitives in order. -/
def execAll (ps : List Prim) (s : RunState) : RunState :=
  ps.foldl execPrim s

/-- Interleave the main continuation with the pending tasks under a
schedule: `true` steps the main continuation, `false` steps the oldest
pending task; an exhausted schedule drains the main continuation and then
the tasks. -/
def runSched : List Bool → List Prim → List Prim → RunState → RunState
  | [], main, tasks, s => execAll tasks (execAll main s)
  | true :: r, p :: ms, tasks, s => runSched r ms tasks (execPrim s p)
  | true :: r, [], tasks, s => runSched r [] tasks s
  | false :: r, main, q :: qs, s => runSched r main qs (execPrim s q)
  | false :: r, main, [], s => runSched r main [] s

/-- The awaited first phase of `commitEntry`: write every data file's `raw`
to `path.join(repoPath, dataFile.path)`, then every asset's content to
`path.join(repoPath, asset.path)` (both `Promise.all`s complete before the
function continues; the writes are independent). -/
def commitEntryWrites (repoPath : String) (dataFiles : List DataFile)
    (assets : List Asset) : List Prim :=
  dataFiles.map (fun d => Prim.write (pathJoin repoPath d.path) d.raw)
    ++ assets.map (fun a => Prim.write (pathJoin repoPath a.path) a.content)

/-- The move tasks `commitEntry` fires without awaiting: one per data file
when `dataFiles.every(dataFile => dataFile.newPath)` holds (JS truthiness:
a missing or empty `newPath` defeats the gate), none otherwise. -/
def commitEntryMoves (repoPath : String) (dataFiles : List DataFile) : List Prim :=
  if dataFiles.all (fun d => jsTruthyStr d.newPath) then
    dataFiles.map (fun d =>
      Prim.moveTask (pathJoin repoPath d.path) (pathJoin repoPath (d.newPath.getD "")))
  else []

/-- A run of `commitEntry(git, repoPath, dataFiles, assets, commitMessage)`
under a schedule: the awaited writes execute first, then `git.add('.')` and
`git.commit(commitMessage)` race against the un-awaited move tasks. -/
def commitEntryRun (repoPath : String) (dataFiles : List DataFile)
    (assets : List Asset) (commitMessage : String) (sched : List Bool)
    (s0 : RunState) : RunState :=
  runSched sched [Prim.gitAdd, Prim.gitCommit commitMessage]
    (commitEntryMoves repoPath dataFiles)
    (execAll (commitEntryWrites repoPath dataFiles assets) s0)

/-! ## Validation layer (`src/middlewares/joi/index.ts`)

The Joi schema is embedded as a first-error validator (`abortEarly`, Joi's
default, reports only the first violated constraint; the repository's own
test expects `details` of length 1).  Values are modelled as typed-or-absent:
a field is `none` when the JSON key is missing.  Error messages follow Joi
17's templates for the constraints the schema uses, plus the dedicated
message of the custom `path` type. -/

inductive JoiErr where
  | required (label : String)
  | emptyNotAllowed (label : String)
  | notOneOf (label : String) (valids : List String)
  | pathInvalid (label : String)
  | forbiddenKey (label : String)
  | xorMissing (label : String) (peers : List String)
  | xorConflict (label : String) (peers : List String)
  | arrayMin (label : String) (n : Nat)
  deriving Repr, DecidableEq

/-- Render a Joi error the way `error.details[i].message` prints it. -/
def JoiErr.message : JoiErr → String
  | .required l => "\"" ++ l ++ "\" is required"
  | .emptyNotAllowed l => "\"" ++ l ++ "\" is not allowed to be empty"
  | .notOneOf l vs => "\"" ++ l ++ "\" must be one of [" ++ String.intercalate ", " vs ++ "]"
  | .pathInvalid l => "\"" ++ l ++ "\" must resolve to a path under the configured repository"
  | .forbiddenKey l => "\"" ++ l ++ "\" is not allowed"
  | .xorMissing l peers =>
    "\"" ++ l ++ "\" must contain at least one of [" ++ String.intercalate ", " peers ++ "]"
  | .xorConflict l peers =>
    "\"" ++ l ++ "\" contains a conflict between exclusive peers [" ++
      String.intercalate ", " peers ++ "]"
  | .arrayMin l n => "\"" ++ l ++ "\" must contain at least " ++ toString n ++ " items"

/-- First error of a list of checks (`abortEarly` semantics). -/
def firstErr : List (Option JoiErr) → Option JoiErr
  | [] => none
  | some e :: _ => some e
  | none :: rest => firstErr rest

/-- The `allowedActions` whitelist of `src/middlewares/joi/index.ts`. -/
def allowedActions : List String :=
  ["info", "entriesByFolder", "entriesByFiles", "getEntry", "persistEntry",
   "getMedia", "getMediaFile", "persistMedia", "deleteFile", "deleteFiles",
   "getDeployPreview"]

/-- `Joi.string().required()`: missing and empty values are rejected. -/
def checkRequiredString (label : String) : Option String → Option JoiErr
  | none => some (.required label)
  | some v => if v = "" then some (.emptyNotAllowed label) else none

/-- `Joi.number().required()` (values are typed-or-absent). -/
def checkRequiredNumber (label : String) : Option Int → Option JoiErr
  | none => some (.required label)
  | some _ => none

/-- The custom `path` type with `.optional()`: an absent value passes; a
present one runs the base string checks and then the traversal predicate. -/
def checkOptionalPath (repoPath label : String) : Option String → Option JoiErr
  | none => none
  | some v =>
    if v = "" then some (.emptyNotAllowed label)
    else if pathTraversalCheck repoPath v then none
    else some (.pathInvalid label)

/-- The custom `path` type (base `Joi.string().required()` plus the
traversal predicate). -/
def checkPath (repoPath label : String) : Option String → Option JoiErr
  | none => some (.required label)
  | some v => checkOptionalPath repoPath label (some v)

/-- `Joi.string().allow('')` (the `content` field): absent passes, and the
empty string is whitelisted, so every typed value passes. -/
def checkContent (_label : String) (_v : Option String) : Option JoiErr :=
  none

/-- `requiredString.valid('base64')`: presence, then the value whitelist. -/
def checkEncoding (label : String) : Option String → Option JoiErr
  | none => some (.required label)
  | some v => if v = "base64" then none else some (.notOneOf label ["base64"])

/-- Validation-level shape of a data file (fields may be absent). -/
structure VDataFile where
  slug : Option String := none
  path : Option String := none
  raw : Option String := none
  newPath : Option String := none
  deriving Repr, DecidableEq

/-- Validation-level shape of an asset. -/
structure VAsset where
  path : Option String := none
  content : Option String := none
  encoding : Option String := none
  deriving Repr, DecidableEq

/-- One element of `params.files`. -/
structure VFileRef where
  path : Option String := none
  fileLabel : Option String := none
  deriving Repr, DecidableEq

/-- `params.options`. -/
structure VOptions where
  collectionName : Option String := none
  commitMessage : Option String := none
  deriving Repr, DecidableEq

/-- The inbound `params` object; every key the schema knows, each optional
(`allowUnknown: true` makes extra keys irrelevant). -/
structure VParams where
  branch : Option String := none
  folder : Option String := none
  extension : Option String := none
  depth : Option Int := none
  files : Option (List VFileRef) := none
  path : Option String := none
  entry : Option VDataFile := none
  asset : Option VAsset := none
  dataFiles : Option (List VDataFile) := none
  assets : Option (List VAsset) := none
  options : Option VOptions := none
  mediaFolder : Option String := none
  paths : Option (List String) := none
  collection : Option String := none
  slug : Option String := none
  deriving Repr, DecidableEq

/-- The inbound request body `{ action, params }`. -/
structure Body where
  action : Option String := none
  params : Option VParams := none
  deriving Repr, DecidableEq

/-- The `dataFile` sub-schema: `slug`, `path`, `raw` required, `newPath`
an optional path (keys checked in insertion order). -/
def checkVDataFile (repoPath lbl : String) (d : VDataFile) : Option JoiErr :=
  firstErr
    [checkRequiredString (lbl ++ ".slug") d.slug,
     checkPath repoPath (lbl ++ ".path") d.path,
     checkRequiredString (lbl ++ ".raw") d.raw,
     checkOptionalPath repoPath (lbl ++ ".newPath") d.newPath]

/-- The `asset` sub-schema: `path` (traversal-checked), `content`
(string allowing `''`), `encoding` (must be `'base64'`). -/
def checkVAsset (repoPath lbl : String) (a : VAsset) : Option JoiErr :=
  firstErr
    [checkPath repoPath (lbl ++ ".path") a.path,
     checkContent (lbl ++ ".content") a.content,
     checkEncoding (lbl ++ ".encoding") a.encoding]

/-- Validate the elements of an array field in order, with Joi's
`label[i]` element labels. -/
def checkItems (check : String → α → Option JoiErr) (lbl : String) :
    Nat → List α → Option JoiErr
  | _, [] => none
  | i, x :: xs =>
    match check (lbl ++ "[" ++ toString i ++ "]") x with
    | some e => some e
    | none => checkItems check lbl (i + 1) xs

/-- One element of `params.files`: `{ path, label: Joi.string() }`. -/
def checkVFileRef (repoPath lbl : String) (f : VFileRef) : Option JoiErr :=
  checkPath repoPath (lbl ++ ".path") f.path

/-- `params.options` for `persistEntry` (`collectionName` optional,
`commitMessage` required). -/
def checkVOptionsEntry (lbl : String) : Option VOptions → Option JoiErr
  | none => some (.required lbl)
  | some o => checkRequiredString (lbl ++ ".commitMessage") o.commitMessage

/-- `params.options` for the media/delete actions (`commitMessage` only). -/
def checkVOptions (lbl : String) : Option VOptions → Option JoiErr
  | none => some (.required lbl)
  | some o => checkRequiredString (lbl ++ ".commitMessage") o.commitMessage

/-- The action-keyed `params` variant of `defaultSchema` (`Joi.when` on
`action`); each branch validates `branch` first, then its own keys in
insertion order; `persistEntry` finishes with the `xor('entry',
'dataFiles')` object dependency. -/
def checkParamsFor (repoPath action : String) (p : Option VParams) : Option JoiErr :=
  if action = "info" then none
  else if action = "entriesByFolder" then
    match p with
    | none => some (.required "params")
    | some q => firstErr
        [checkRequiredString "params.branch" q.branch,
         checkPath repoPath "params.folder" q.folder,
         checkRequiredString "params.extension" q.extension,
         checkRequiredNumber "params.depth" q.depth]
  else if action = "entriesByFiles" then
    match p with
    | none => none
    | some q => firstErr
        [checkRequiredString "params.branch" q.branch,
         match q.files with
         | none => some (.required "params.files")
         | some fs => checkItems (checkVFileRef repoPath) "params.files" 0 fs]
  else if action = "getEntry" then
    match p with
    | none => some (.required "params")
    | some q => firstErr
        [checkRequiredString "params.branch" q.branch,
         checkPath repoPath "params.path" q.path]
  else if action = "persistEntry" then
    match p with
    | none => some (.required "params")
    | some q => firstErr
        [checkRequiredString "params.branch" q.branch,
         match q.entry with
         | none => none
         | some e => checkVDataFile repoPath "params.entry" e,
         match q.dataFiles with
         | none => none
         | some ds => checkItems (checkVDataFile repoPath) "params.dataFiles" 0 ds,
         match q.assets with
         | none => some (.required "params.assets")
         | some as_ => checkItems (checkVAsset repoPath) "params.assets" 0 as_,
         checkVOptionsEntry "params.options" q.options,
         match q.entry, q.dataFiles with
         | none, none => some (.xorMissing "params" ["entry", "dataFiles"])
         | some _, some _ => some (.xorConflict "params" ["entry", "dataFiles"])
         | _, _ => none]
  else if action = "getMedia" then
    match p with
    | none => some (.required "params")
    | some q => firstErr
        [checkRequiredString "params.branch" q.branch,
         checkPath repoPath "params.mediaFolder" q.mediaFolder]
  else if action = "getMediaFile" then
    match p with
    | none => some (.required "params")
    | some q => firstErr
        [checkRequiredString "params.branch" q.branch,
         checkPath repoPath "params.path" q.path]
  else if action = "persistMedia" then
    match p with
    | none => some (.required "params")
    | some q => firstErr
        [checkRequiredString "params.branch" q.branch,
         match q.asset with
         | none => some (.required "params.asset")
         | some a => checkVAsset repoPath "params.asset" a,
         checkVOptions "params.options" q.options]
  else if action = "deleteFile" then
    match p with
    | none => some (.required "params")
    | some q => firstErr
        [checkRequiredString "params.branch" q.branch,
         checkPath repoPath "params.path" q.path,
         checkVOptions "params.options" q.options]
  else if action = "deleteFiles" then
    match p with
    | none => some (.required "params")
    | some q => firstErr
        [checkRequiredString "params.branch" q.branch,
         match q.paths with
         | none => some (.required "params.paths")
         | some ps => firstErr
             [checkItems (fun lbl v => checkPath repoPath lbl (some v)) "params.paths" 0 ps,
              if ps.length < 1 then some (.arrayMin "params.paths" 1) else none],
         checkVOptions "params.options" q.options]
  else if action = "getDeployPreview" then
    match p with
    | none => some (.required "params")
    | some q => firstErr
        [checkRequiredString "params.branch" q.branch,
         checkRequiredString "params.collection" q.collection,
         checkRequiredString "params.slug" q.slug]
  else
    match p with
    | none => none
    | some _ => some (.forbiddenKey "params")

/-- `Joi.object({ action, params })` as validated by the `joi` middleware
with `allowUnknown: true`: the `action` key (required, whitelisted) is
checked first, then the action-selected `params` variant; the first
violation is reported. -/
def validateBody (repoPath : String) (b : Body) : Option JoiErr :=
  match b.action with
  | none => some (.required "action")
  | some a =>
    if allowedActions.contains a then checkParamsFor repoPath a b.params
    else some (.notOneOf "action" allowedActions)

/-! ## The git middleware (`src/middlewares/localGit/index.ts`)

The per-request computation is embedded in a state-and-exception monad over
the `World` (repository plus working tree): `MW α = World → Except String α
× World`.  A thrown JS exception is `Except.error`; the JS `try/finally`
and `try/catch/finally` shapes are written out explicitly where the source
has them.  The process mutex lives *outside* this monad, exactly as the
source's handlers have no access to the middleware's `mutex` — it is
threaded by the top-level request runner only.

Fallible externals (git commands, filesystem writes, entry reads) take
their outcome from a `Faults` oracle, so theorems quantify over every
combination of success and failure. -/

structure GitState where
  branches : List String
  current : String
  staged : FsTree
  commits : List (String × FsTree)

structure World where
  git : GitState
  fs : FsTree
  pendingMoves : List (String × String)

/-- Failure oracle for the fallible externals of one request. -/
structure Faults where
  lockTimeout : Bool := false
  branchLocal : Bool := false
  checkout : String → Bool := fun _ => false
  write : Bool := false
  gitAdd : Bool := false
  gitCommit : Bool := false
  read : Bool := false

def MW (α : Type) : Type := World → Except String α × World

instance : Monad MW where
  pure a := fun w => (Except.ok a, w)
  bind m f := fun w =>
    match m w with
    | (Except.ok a, w1) => f a w1
    | (Except.error e, w1) => (Except.error e, w1)

/-- A thrown JS exception. -/
def throwMW (e : String) : MW α := fun w => (Except.error e, w)

/-- Use of an absent (`undefined`) value where the code needs a real one
(property access, `path.join`, destructuring): a `TypeError`. -/
def reqFieldMW : Option α → MW α
  | some a => fun w => (Except.ok a, w)
  | none => throwMW "TypeError"

/-- `getCurrentBranch(git)`: `git.branchLocal()` then `summary.current`. -/
def getCurrentBranchMW (faults : Faults) : MW String := fun w =>
  if faults.branchLocal then (Except.error "git branchLocal failed", w)
  else (Except.ok w.git.current, w)

/-- `isBranchExists(git, branch)`: `git.branchLocal()` then
`all.includes(branch)`.  An absent branch name is never in the list. -/
def isBranchExistsMW (faults : Faults) (branch : Option String) : MW Bool := fun w =>
  if faults.branchLocal then (Except.error "git branchLocal failed", w)
  else
    (Except.ok (match branch with
      | some b => w.git.branches.contains b
      | none => false), w)

/-- `git.checkout(name)`: on success the working tree's current branch
becomes `name`; a failed checkout (oracle, or unknown branch) leaves the
repository state as it was. -/
def checkoutMW (faults : Faults) (b : String) : MW Unit := fun w =>
  if faults.checkout b then (Except.error "git checkout failed", w)
  else if w.git.branches.contains b then
    (Except.ok (), { w with git := { w.git with current := b } })
  else (Except.error "git checkout failed", w)

/-- `git.add('.')`: stage the whole working tree. -/
def gitAddMW (faults : Faults) : MW Unit := fun w =>
  if faults.gitAdd then (Except.error "git add failed", w)
  else (Except.ok (), { w with git := { w.git with staged := w.fs } })

/-- `git.commit(message, ..., { '--no-verify': null, '--no-gpg-sign':
null })`: record the staged tree under the message.  An absent message is a
failing git invocation. -/
def gitCommitMW (faults : Faults) (msg : Option String) : MW Unit := fun w =>
  match msg with
  | none => (Except.error "git commit failed", w)
  | some m =>
    if faults.gitCommit then (Except.error "git commit failed", w)
    else (Except.ok (), { w with git := { w.git with commits := w.git.commits ++ [(m, w.git.staged)] } })

/-- `commit(git, commitMessage)`: `git.add('.')` then `git.commit(...)`. -/
def commitMW (faults : Faults) (msg : Option String) : MW Unit := do
  gitAddMW faults
  gitCommitMW faults msg

/-- `writeFile` as an effect on the working tree. -/
def writeFileMW (faults : Faults) (p c : String) : MW Unit := fun w =>
  if faults.write then (Except.error "write failed", w)
  else (Except.ok (), { w with fs := writeFileFS w.fs p c })

/-- `deleteFile(repoPath, filePath)`: tolerant unlink; a missing file is a
no-op and never a failure. -/
def deleteFileMW (rp p : String) : MW Unit := fun w =>
  (Except.ok (), { w with fs := deleteFileFS w.fs rp p })

/-- `listRepoFiles` as a read of the working tree. -/
def listRepoFilesMW (rp folder extension : String) (depth : Int) : MW (List FsItem) :=
  fun w => (Except.ok (listRepoFiles w.fs rp folder extension depth), w)

/-- Fire one `move(from, to)` without awaiting it (the `forEach(async ...)`
of `commitEntry`): the promise is pending when the request completes. -/
def spawnMoveMW (a b : String) : MW Unit := fun w =>
  (Except.ok (), { w with pendingMoves := w.pendingMoves ++ [(a, b)] })

/-- `runOnBranch(git, branch, func)`: read the current branch (outside the
`try`), check out `branch` when it differs, run `func`, and in the
`finally` check the captured branch back out; an exception thrown by the
`finally`'s checkout replaces the body's outcome, as in JS. -/
def runOnBranchMW (faults : Faults) (branch : Option String) (func : MW α) : MW α := fun w =>
  match getCurrentBranchMW faults w with
  | (Except.error e, w1) => (Except.error e, w1)
  | (Except.ok currentBranch, w1) =>
    let (tryResult, w2) :=
      if (some currentBranch == branch) = false then
        match checkoutMW faults (branch.getD "undefined") w1 with
        | (Except.ok _, w') => func w'
        | (Except.error e, w') => (Except.error e, w')
      else func w1
    match checkoutMW faults currentBranch w2 with
    | (Except.ok _, w3) => (tryResult, w3)
    | (Except.error e, w3) => (Except.error e, w3)

/-! ### Entry utilities (`src/middlewares/utils/entries.ts`, not under `src/`)

Only tests and callers of this module are available; the definitions below
are modelled from the spec. -/

/-- A JS value used where the code will treat it as a path string: either a
real string or something else (for which `path.join` raises `TypeError`). -/
inductive JsStrArg where
  | str (s : String)
  | notStr
  deriving Repr, DecidableEq

/-- Modelled from the spec: an entry, "a content document derived from one
or more data files plus metadata (update time, etc.)"; here its repo-relative
path and the file content read for it. -/
structure Entry where
  path : String
  data : Option String
  deriving Repr, DecidableEq

/-- Modelled from the spec: `readMediaFile(repoPath, path)` of the missing
`utils/entries.ts` "reads one media file's bytes/metadata". -/
structure MediaFile where
  path : String
  content : Option String
  deriving Repr, DecidableEq

/-- Modelled from the spec: reading one entry for `entriesFromFiles`
("converts an explicit file list to entries"): a non-string path raises
`TypeError` in `path.join`; reading is fallible I/O. -/
def readEntryMW (faults : Faults) (rp : String) : JsStrArg → MW Entry
  | .notStr => throwMW "TypeError"
  | .str p => fun w =>
    if faults.read then (Except.error "read failed", w)
    else
      (Except.ok { path := p
                   data := match lookupNode w.fs (pathSegs (pathJoin rp p)) with
                     | some (.file c) => some c
                     | _ => none }, w)

/-- Modelled from the spec: `entriesFromFiles(repoPath, files)` converts
each file reference to an entry representation. -/
def entriesFromFilesMW (faults : Faults) (rp : String) : List JsStrArg → MW (List Entry)
  | [] => pure []
  | a :: rest => do
    let e ← readEntryMW faults rp a
    let es ← entriesFromFilesMW faults rp rest
    pure (e :: es)

/-- Modelled from the spec: `readMediaFile(repoPath, path)` reads one media
file's bytes/metadata. -/
def readMediaFileMW (faults : Faults) (rp : String) (p : Option String) : MW MediaFile := do
  let ps ← reqFieldMW p
  fun w =>
    if faults.read then (Except.error "read failed", w)
    else
      (Except.ok { path := ps
                   content := match lookupNode w.fs (pathSegs (pathJoin rp ps)) with
                     | some (.file c) => some c
                     | _ => none }, w)

/-! ### The dispatcher's handlers -/

/-- A `path`/`url` pair of the `getMedia` response. -/
structure MediaItem where
  path : String
  url : String
  deriving Repr, DecidableEq

/-- The response payloads `res.json(...)` is called with. -/
inductive RespBody where
  | infoBody (repo ty : String)
  | entriesBody (es : List Entry)
  | entryBody (e : Option Entry)
  | messageBody (m : String)
  | mediaBody (items : List MediaItem)
  | mediaFileBody (f : MediaFile)
  | nullBody
  | errorBody (m : String)
  deriving Repr, DecidableEq

/-- An HTTP response: status code (200 for a plain `res.json`) and body. -/
structure Response where
  status : Nat
  body : RespBody
  deriving Repr, DecidableEq

/-- The string-level `path` field of one `getMedia` item as the source
writes it for a string input: `file.replace(/\\\\/g, '/')`. -/
def getMediaPathString (file : String) : String :=
  jsReplaceAll file "\\\\" "/"

/-- The string-level `url` field of one `getMedia` item as the source
writes it: `path.join(repoPath, file).replace(/\\\\/g, '/')` — note the
join with the repository path. -/
def getMediaUrlString (repoPath file : String) : String :=
  jsReplaceAll (pathJoin repoPath file) "\\\\" "/"

/-- The `getMedia` handler body: list one level under the media folder,
then map each listed item to a `path`/`url` pair.  `listRepoFiles` returns
`FsItem` records, and the mapping calls `file.replace(...)` and
`path.join(repoPath, file)` on each — string operations on a record, which
raise `TypeError` at the first element; only an empty listing survives to
produce `[]`. -/
def getMediaFunc (rp : String) (mediaFolder : Option String) :
    MW (List MediaItem) := do
  let mf ← reqFieldMW mediaFolder
  let files ← listRepoFilesMW rp mf "" 1
  match files with
  | [] => pure []
  | _ :: _ => throwMW "TypeError: file.replace is not a function"

/-- Write one data file of `commitEntry`: `writeFile(path.join(repoPath,
dataFile.path), dataFile.raw)`; an absent data file, path or raw value is a
`TypeError`. -/
def writeDataFileMW (faults : Faults) (rp : String) (d : Option VDataFile) : MW Unit := do
  let df ← reqFieldMW d
  let p ← reqFieldMW df.path
  let r ← reqFieldMW df.raw
  writeFileMW faults (pathJoin rp p) r

/-- The awaited data-file writes of `commitEntry` (independent writes,
modelled in list order). -/
def writeDataFilesMW (faults : Faults) (rp : String) : List (Option VDataFile) → MW Unit
  | [] => pure ()
  | d :: rest => do
    writeDataFileMW faults rp d
    writeDataFilesMW faults rp rest

/-- Write one asset: `writeFile(path.join(repoPath, a.path),
Buffer.from(a.content, a.encoding))` (decoded bytes modelled by the content
string). -/
def writeAssetMW (faults : Faults) (rp : String) (a : VAsset) : MW Unit := do
  let p ← reqFieldMW a.path
  let c ← reqFieldMW a.content
  writeFileMW faults (pathJoin rp p) c

/-- The awaited asset writes of `commitEntry`. -/
def writeAssetsMW (faults : Faults) (rp : String) : List VAsset → MW Unit
  | [] => pure ()
  | a :: rest => do
    writeAssetMW faults rp a
    writeAssetsMW faults rp rest

/-- Fire the un-awaited `move` of every data file (`forEach(async ...)`). -/
def spawnMovesMW (rp : String) : List VDataFile → MW Unit
  | [] => pure ()
  | d :: rest => do
    spawnMoveMW (pathJoin rp (d.path.getD "undefined")) (pathJoin rp (d.newPath.getD "undefined"))
    spawnMovesMW rp rest

/-- Extract the data-file records for the rename gate
(`dataFiles.every(dataFile => dataFile.newPath)` reads a property of each,
so an `undefined` element raises). -/
def reqAllMW : List (Option VDataFile) → MW (List VDataFile)
  | [] => pure []
  | d :: rest => do
    let df ← reqFieldMW d
    let ds ← reqAllMW rest
    pure (df :: ds)

/-- `commitEntry(git, repoPath, dataFiles, assets, commitMessage)`: write
the data files, then the assets, then — iff every data file's `newPath` is
truthy — fire the un-awaited moves, then `git.add('.')` and commit. -/
def commitEntryMW (faults : Faults) (rp : String) (dataFiles : List (Option VDataFile))
    (assets : Option (List VAsset)) (msg : Option String) : MW Unit := do
  writeDataFilesMW faults rp dataFiles
  let as_ ← reqFieldMW assets
  writeAssetsMW faults rp as_
  let ds ← reqAllMW dataFiles
  if ds.all (fun d => jsTruthyStr d.newPath) then spawnMovesMW rp ds else pure ()
  commitMW faults msg

/-- Delete every path of `deleteFiles` (tolerant per-file delete). -/
def deleteAllMW (rp : String) : List String → MW Unit
  | [] => pure ()
  | p :: rest => do
    deleteFileMW rp p
    deleteAllMW rp rest

/-- The `entriesByFolder` handler body (inside the branch guard):
`listRepoFiles` then `entriesFromFiles` over `files.map(file => ({ path:
file }))` — each listed element is an `FsItem` record, not a string, so
every mapped path argument is a non-string. -/
def entriesByFolderFunc (faults : Faults) (rp : String) (params : VParams) :
    MW (List Entry) := do
  let f ← reqFieldMW params.folder
  let files ← listRepoFilesMW rp f (params.extension.getD "undefined") (params.depth.getD 1)
  entriesFromFilesMW faults rp (files.map (fun _ => JsStrArg.notStr))

/-- The `entriesByFiles` handler body: `entriesFromFiles(repoPath,
payload.files)`. -/
def entriesByFilesFunc (faults : Faults) (rp : String) (params : VParams) :
    MW (List Entry) := do
  let fs_ ← reqFieldMW params.files
  entriesFromFilesMW faults rp (fs_.map (fun f =>
    match f.path with
    | some p => JsStrArg.str p
    | none => JsStrArg.notStr))

/-- The one-element file list of `getEntry`: `[{ path: payload.path }]`. -/
def getEntryArgs (params : VParams) : List JsStrArg :=
  [match params.path with
   | some p => JsStrArg.str p
   | none => JsStrArg.notStr]

/-- `dataFiles = [entry as DataFile]` — the destructuring default of the
`persistEntry` case. -/
def persistDataFiles (params : VParams) : List (Option VDataFile) :=
  match params.dataFiles with
  | some ds => ds.map some
  | none => [params.entry]

/-- The `persistEntry` handler body: `commitEntry(git, repoPath, dataFiles,
assets, options.commitMessage)` (an absent `options` raises inside the
guard, at argument evaluation). -/
def persistEntryFunc (faults : Faults) (rp : String) (params : VParams) : MW Unit := do
  let opts ← reqFieldMW params.options
  commitEntryMW faults rp (persistDataFiles params) params.assets opts.commitMessage

/-- The `persistMedia` handler body: write the asset, commit, read it back. -/
def persistMediaFunc (faults : Faults) (rp : String) (params : VParams)
    (cm : Option String) : MW MediaFile := do
  let a ← reqFieldMW params.asset
  writeAssetMW faults rp a
  commitMW faults cm
  readMediaFileMW faults rp a.path

/-- The `deleteFile` handler body: tolerant delete, then commit. -/
def deleteFileFunc (faults : Faults) (rp : String) (params : VParams)
    (cm : Option String) : MW Unit := do
  let fp ← reqFieldMW params.path
  deleteFileMW rp fp
  commitMW faults cm

/-- The `deleteFiles` handler body: delete every path, then commit once. -/
def deleteFilesFunc (faults : Faults) (rp : String) (params : VParams)
    (cm : Option String) : MW Unit := do
  let ps ← reqFieldMW params.paths
  deleteAllMW rp ps
  commitMW faults cm

/-- The dispatcher's `switch (body.action)` after the branch-existence
check: every case's file/commit work runs inside `runOnBranch`;
`getDeployPreview` answers `null` and the `default` case answers 422
"Unknown action". -/
def dispatchMW (faults : Faults) (rp : String) (req : Body) (params : VParams) :
    MW Response :=
  if req.action == some "entriesByFolder" then do
    let entries ← runOnBranchMW faults params.branch (entriesByFolderFunc faults rp params)
    pure ⟨200, .entriesBody entries⟩
  else if req.action == some "entriesByFiles" then do
    let entries ← runOnBranchMW faults params.branch (entriesByFilesFunc faults rp params)
    pure ⟨200, .entriesBody entries⟩
  else if req.action == some "getEntry" then do
    let entries ← runOnBranchMW faults params.branch
      (entriesFromFilesMW faults rp (getEntryArgs params))
    pure ⟨200, .entryBody entries.head?⟩
  else if req.action == some "persistEntry" then do
    let _ ← runOnBranchMW faults params.branch (persistEntryFunc faults rp params)
    pure ⟨200, .messageBody "entry persisted"⟩
  else if req.action == some "getMedia" then do
    let items ← runOnBranchMW faults params.branch (getMediaFunc rp params.mediaFolder)
    pure ⟨200, .mediaBody items⟩
  else if req.action == some "getMediaFile" then do
    let file ← runOnBranchMW faults params.branch (readMediaFileMW faults rp params.path)
    pure ⟨200, .mediaFileBody file⟩
  else if req.action == some "persistMedia" then do
    let opts ← reqFieldMW params.options
    let file ← runOnBranchMW faults params.branch (persistMediaFunc faults rp params opts.commitMessage)
    pure ⟨200, .mediaFileBody file⟩
  else if req.action == some "deleteFile" then do
    let opts ← reqFieldMW params.options
    let _ ← runOnBranchMW faults params.branch (deleteFileFunc faults rp params opts.commitMessage)
    pure ⟨200, .messageBody ("deleted file " ++ params.path.getD "undefined")⟩
  else if req.action == some "deleteFiles" then do
    let opts ← reqFieldMW params.options
    let _ ← runOnBranchMW faults params.branch (deleteFilesFunc faults rp params opts.commitMessage)
    pure ⟨200, .messageBody
      ("deleted files " ++ String.intercalate ", " (params.paths.getD []))⟩
  else if req.action == some "getDeployPreview" then
    pure ⟨200, .nullBody⟩
  else
    pure ⟨422, .errorBody ("Unknown action " ++ req.action.getD "undefined")⟩

/-- The body of the middleware's `try` block after the lock is held:
`info` short-circuits (no branch check, no guard); every other action
destructures `body.params` (throwing on an absent object, as JS does),
requires `branch` to name an existing local branch, and dispatches. -/
def tryBodyMW (faults : Faults) (rp : String) (req : Body) : MW Response := do
  if req.action == some "info" then
    pure ⟨200, .infoBody (pathBasename rp) "local_git"⟩
  else
    let params ← reqFieldMW req.params
    let branchExists ← isBranchExistsMW faults params.branch
    if branchExists = false then
      pure ⟨422, .errorBody
        ("Default branch '" ++ params.branch.getD "undefined" ++ "' doesn't exist")⟩
    else
      dispatchMW faults rp req params

/-! ### The request runner: mutex, catch, finally -/

/-- Observable lock transitions of the request's mutex. -/
inductive LockEv where
  | acquire
  | release
  deriving Repr, DecidableEq

/-- Per-request server state: the mutex's hold count, the emitted lock
transitions, and the shared world. -/
structure MWState where
  lockCount : Nat
  events : List LockEv
  world : World

/-- `localGitMiddleware`'s request function: `release = await
mutex.acquire()` as the first statement of the `try`; a timed-out
acquisition rejects before the lock is held (`release` stays unset, so the
`finally`'s `release && release()` does nothing) and the `catch` answers
500; otherwise the body runs, the `finally` releases, and any thrown error
is collapsed by the `catch` to a 500 "Unknown error". -/
def localGitRequest (faults : Faults) (rp : String) (req : Body) (s : MWState) :
    Response × MWState :=
  if faults.lockTimeout then
    (⟨500, .errorBody "Unknown error"⟩, s)
  else
    let s1 : MWState :=
      { s with lockCount := s.lockCount + 1, events := s.events ++ [LockEv.acquire] }
    let out := tryBodyMW faults rp req s1.world
    let s3 : MWState :=
      { lockCount := s1.lockCount - 1
        events := s1.events ++ [LockEv.release]
        world := out.2 }
    match out.1 with
    | Except.ok resp => (resp, s3)
    | Except.error _ => (⟨500, RespBody.errorBody "Unknown error"⟩, s3)

/-- The `/api/v1` stack as `registerMiddleware` wires it: the `joi`
validation middleware first (a validation failure answers 422 with the
violation's message and never reaches the git middleware), then
`localGitMiddleware`. -/
def handleApiV1 (faults : Faults) (rp : String) (req : Body) (s : MWState) :
    Response × MWState :=
  match validateBody rp req with
  | some e => (⟨422, RespBody.errorBody e.message⟩, s)
  | none => localGitRequest faults rp req s

/-- A computation that never changes the repository's branch list (every
handler body qualifies: handlers write files and commits, never create or
delete branches). -/
def PreservesBranches (m : MW α) : Prop :=
  ∀ w, ((m w).2).git.branches = w.git.branches

/-! ## Concrete scenario inputs -/

/-- The all-success failure oracle. -/
def noFaults : Faults := {}

/-- Scenario repository: branch `main` checked out, media files
`img/a.png` and `img/b.png` under the root `/repo`. -/
def exampleWorld : World :=
  { git := { branches := ["main"], current := "main", staged := FsTree.dir [], commits := [] }
    fs := FsTree.dir [("repo", FsTree.dir
      [("img", FsTree.dir [("a.png", FsTree.file "A"), ("b.png", FsTree.file "B")])])]
    pendingMoves := [] }

/-- Scenario server state: lock free, no transitions yet. -/
def exampleState : MWState :=
  { lockCount := 0, events := [], world := exampleWorld }

/-- The `getMedia` scenario request of the specification. -/
def getMediaReq : Body :=
  { action := some "getMedia"
    params := some { branch := some "main", mediaFolder := some "img" } }

/-- The unknown-action scenario request. -/
def frobnicateReq : Body :=
  { action := some "frobnicate"
    params := some { branch := some "main" } }

/-- Scenario data file carrying a rename: `a.md` → `b.md`. -/
def renameDataFile : DataFile :=
  { slug := "post", path := "a.md", raw := "x", newPath := some "b.md" }

/-- Scenario initial run state for `commitEntry`: empty repository. -/
def emptyRun : RunState :=
  { fs := FsTree.dir [], staged := FsTree.dir [], commits := [], trace := [] }

/-- Nested-directory scenario tree for the listing claims: `posts/top.md`
and `posts/sub/a.md` under `/repo`. -/
def nestedTree : FsTree :=
  FsTree.dir [("repo", FsTree.dir
    [("posts", FsTree.dir
      [("sub", FsTree.dir [("a.md", FsTree.file "X")]),
       ("top.md", FsTree.file "T")])])]

/-! # Theorems -/

/-- Claim C2: for every request, every failure oracle and every starting
state, `localGitMiddleware`'s request function leaves the mutex's hold
count exactly where it found it, and its lock transitions are: none at all
when acquisition timed out (a timed-out request never held the lock), and
exactly one acquire followed by one release otherwise — the release happens
on every path, success, handler error or branch-guard error alike, before
the response is produced. -/
theorem localGit_lock_released (faults : Faults) (rp : String) (req : Body)
    (s : MWState) :
    ((localGitRequest faults rp req s).2).lockCount = s.lockCount ∧
    ((localGitRequest faults rp req s).2).events
      = s.events ++ (if faults.lockTimeout then [] else [LockEv.acquire, LockEv.release]) := by
  unfold localGitRequest
  by_cases h : faults.lockTimeout
  · simp [h]
  · rcases hout : tryBodyMW faults rp req s.world with ⟨r, w2⟩
    cases r <;> simp [h, hout]

/-- Claim C6 (failing input): `listFiles`/`listRepoFiles` do not recurse.
On a tree holding `posts/top.md` and `posts/sub/a.md`, a listing of
`posts` with extension `.md` and depth 2 returns only the direct child
`posts/top.md`; the nested `posts/sub/a.md` — within the requested depth
and matching the extension — is absent, and the result at depth 2 is the
result at depth 1.  An unreadable directory yields an empty result for the
whole call. -/
theorem listFiles_does_not_recurse :
    (listRepoFiles nestedTree "/repo" "posts" ".md" 2).map (fun f => f.file)
        = [some "posts/top.md"] ∧
    listFiles nestedTree "/repo/posts" ".md" 2 = listFiles nestedTree "/repo/posts" ".md" 1 ∧
    ((listRepoFiles nestedTree "/repo" "posts" ".md" 2).map (fun f => f.file)).contains
        (some "posts/sub/a.md") = false ∧
    listFiles (FsTree.dir [("repo", FsTree.dir [("bad", FsTree.unreadable)])])
        "/repo/bad" ".md" 5 = [] := by
  refine ⟨?_, ?_, ?_, ?_⟩ <;> rfl

/-- Claim C7 (failing input): the `getMedia` scenario — branch `main`,
media folder `img`, repository containing `img/a.png` and `img/b.png` —
does not produce the identity `path`/`url` pairs: the handler passes
`FsItem` records where strings are expected and the request collapses to a
500, and even the string-level `url` expression the source writes joins the
repository path in front of the listed path (`/repo/img/a.png`, not the
claimed `img/a.png`). -/
theorem getMedia_url_not_identity :
    (handleApiV1 noFaults "/repo" getMediaReq exampleState).1
        = { status := 500, body := RespBody.errorBody "Unknown error" } ∧
    getMediaUrlString "/repo" "img/a.png" = "/repo/img/a.png" ∧
    getMediaPathString "img/a.png" = "img/a.png" ∧
    getMediaUrlString "/repo" "img/a.png" ≠ getMediaPathString "img/a.png" := by
  refine ⟨rfl, rfl, rfl, ?_⟩
  decide

/-- Claim C4 (failing input): `commitEntry` fires the renames without
awaiting them (`forEach` with an `async` callback), so the commit races
them.  For a single data file `a.md` → `b.md`: under the schedule that
runs the main continuation first, the one commit `msg` snapshots `a.md`
still present and `b.md` absent — the rename is not captured — while the
working tree after the task drains does hold the rename; under the
schedule that lets the move run first, the same code captures the rename
in the commit. -/
theorem persistEntry_commit_races_rename :
    (commitEntryRun "repo" [renameDataFile] [] "msg" [true, true] emptyRun).commits.map Prod.fst
        = ["msg"] ∧
    (commitEntryRun "repo" [renameDataFile] [] "msg" [true, true] emptyRun).commits.map
        (fun c => ((lookupNode c.2 ["repo", "a.md"]).isSome,
                   (lookupNode c.2 ["repo", "b.md"]).isSome))
        = [(true, false)] ∧
    (lookupNode (commitEntryRun "repo" [renameDataFile] [] "msg" [true, true] emptyRun).fs
        ["repo", "a.md"]).isSome = false ∧
    (lookupNode (commitEntryRun "repo" [renameDataFile] [] "msg" [true, true] emptyRun).fs
        ["repo", "b.md"]).isSome = true ∧
    (commitEntryRun "repo" [renameDataFile] [] "msg" [false, true, true] emptyRun).commits.map
        (fun c => (lookupNode c.2 ["repo", "b.md"]).isSome) = [true] := by
  exact ⟨rfl, rfl, rfl, rfl, rfl⟩

/-- Claim C3 (counterexample): the traversal check is a string-prefix test,
not a descendant test.  From root `/repo` the value `../repo2/x` resolves
to `/repo2/x`, which does not stay under `/repo`, yet `pathTraversalCheck`
accepts it and the whole `getEntry` validation passes — the claim's
"validation fails exactly when the value does not stay under the root" is
false at this input. -/
theorem pathTraversal_sibling_escape :
    pathJoin "/repo" "../repo2/x" = "/repo2/x" ∧
    resolvesUnderRoot (pathJoin "/repo" "") (pathJoin "/repo" "../repo2/x") = false ∧
    pathTraversalCheck "/repo" "../repo2/x" = true ∧
    checkParamsFor "/repo" "getEntry"
      (some { branch := some "main", path := some "../repo2/x" }) = none := by
  exact ⟨rfl, by decide, rfl, rfl⟩

/-- Acceptance is implied by containment: a resolved path that stays under
the root in the specification's sense in particular has the root as a
string prefix, which is what the code tests. -/
theorem startsWith_of_under (root p : String) (h : resolvesUnderRoot root p = true) :
    jsStartsWith p root = true := by
  unfold resolvesUnderRoot at h
  simp only [Bool.or_eq_true] at h
  rcases h with h1 | h2
  · have hpe : p = root := by
      have hb := h1
      rwa [beq_iff_eq] at hb
    subst hpe
    unfold jsStartsWith
    simp
  · unfold jsStartsWith at h2 ⊢
    have hd : (root ++ "/").data = root.data ++ ['/'] := by
      cases root
      rfl
    rw [hd] at h2
    simp only [ List.isPrefixOf_iff_prefix] at h2 ⊢
    exact List.IsPrefix.trans (List.prefix_append root.data ['/']) h2

/-- Claim C3 (amended): every path value resolving inside the repository
root passes the check (containment implies the tested string prefix), and
whenever the check rejects a value the validator reports the dedicated
"must resolve to a path under the configured repository" message for that
field (shown on `getEntry`'s `params.path`); the converse direction of the
original claim is false — escaping values whose resolution merely extends
the root's name as a string (sibling directories) also pass. -/
theorem pathTraversal_check_spec (root value : String) :
    (resolvesUnderRoot (pathJoin root "") (pathJoin root value) = true →
      pathTraversalCheck root value = true) ∧
    (∀ b, pathTraversalCheck root value = false → b ≠ "" → value ≠ "" →
      validateBody root
        { action := some "getEntry"
          params := some { branch := some b, path := some value } }
        = some (JoiErr.pathInvalid "params.path")) := by
  constructor
  · intro h
    exact startsWith_of_under _ _ h
  · intro b hck hb hv
    have hstep : validateBody root
        { action := some "getEntry"
          params := some { branch := some b, path := some value } }
        = firstErr
            [checkRequiredString "params.branch" (some b),
             checkPath root "params.path" (some value)] := rfl
    rw [hstep]
    simp [checkRequiredString, checkPath, checkOptionalPath, firstErr, hb, hv, hck]

/-- Witness for the amended C3 theorem: `src/posts/a.md` resolves inside
`/repo` and passes; `../secret` fails the check and draws the dedicated
message on `params.path`. -/
theorem pathTraversal_check_spec_witness :
    pathTraversalCheck "/repo" "src/posts/a.md" = true ∧
    validateBody "/repo"
      { action := some "getEntry"
        params := some { branch := some "main", path := some "../secret" } }
      = some (JoiErr.pathInvalid "params.path") :=
  ⟨(pathTraversal_check_spec "/repo" "src/posts/a.md").1 (by decide),
   (pathTraversal_check_spec "/repo" "../secret").2 "main" (by decide) (by decide) (by decide)⟩

/-- `charIndexOf` finds the marker right after a marker-free block. -/
theorem charIndexOf_append_notMem (l r : List Char) (c : Char) (h : c ∉ l) :
    charIndexOf (l ++ c :: r) c = some l.length := by
  induction l with
  | nil => simp [charIndexOf]
  | cons a l ih =>
    have ha : (a == c) = false := by
      refine beq_eq_false_iff_ne.mpr ?_
      intro he
      exact h (he ▸ List.mem_cons_self a l)
    have ih2 := ih (fun hm => h (List.mem_cons_of_mem _ hm))
    simp [charIndexOf, ha, ih2]

/-- Claim C9: for a collection name containing no `/` (the slug may), the
content key round-trips: `parseContentKey(generateContentKey(collection,
slug))` recovers exactly the collection and the slug, splitting at the
first `/` only. -/
theorem contentKey_roundtrip (collectionName slug : String)
    (h : '/' ∉ collectionName.data) :
    parseContentKey (generateContentKey collectionName slug)
      = { collection := collectionName, slug := slug } := by
  obtain ⟨cd⟩ := collectionName
  obtain ⟨sd⟩ := slug
  have hdata : (generateContentKey ⟨cd⟩ ⟨sd⟩) = ⟨cd ++ '/' :: sd⟩ := by
    show (⟨(cd ++ ['/']) ++ sd⟩ : String) = ⟨cd ++ '/' :: sd⟩
    rw [List.append_assoc]
    rfl
  rw [hdata]
  have hidx : charIndexOf (cd ++ '/' :: sd) '/' = some cd.length :=
    charIndexOf_append_notMem cd sd '/' h
  have hKlen : (⟨cd ++ '/' :: sd⟩ : String).data.length = cd.length + (sd.length + 1) := by
    rw [show (⟨cd ++ '/' :: sd⟩ : String).data = cd ++ '/' :: sd from rfl]
    rw [List.length_append]
    rfl
  have hcol : jsSlice ⟨cd ++ '/' :: sd⟩ 0 (cd.length : Int) = ⟨cd⟩ := by
    unfold jsSlice jsSliceIndex
    rw [if_neg (by omega), if_neg (by omega), hKlen]
    rw [show ((0 : Int)).toNat = 0 from rfl]
    rw [show ((cd.length : Int)).toNat = cd.length by omega]
    show (⟨List.drop 0 (List.take (cd.length ⊓ (cd.length + (sd.length + 1))) (cd ++ '/' :: sd))⟩ : String) = ⟨cd⟩
    rw [List.drop_zero, Nat.min_eq_left (by omega), List.take_left' rfl]
  have hslug : jsSliceFrom ⟨cd ++ '/' :: sd⟩ ((cd.length : Int) + 1) = ⟨sd⟩ := by
    unfold jsSliceFrom jsSliceIndex
    rw [if_neg (by omega), hKlen]
    rw [show ((cd.length : Int) + 1).toNat = cd.length + 1 by omega]
    show (⟨List.drop ((cd.length + 1) ⊓ (cd.length + (sd.length + 1))) (cd ++ '/' :: sd)⟩ : String) = ⟨sd⟩
    rw [Nat.min_eq_left (by omega)]
    rw [show cd ++ '/' :: sd = (cd ++ ['/']) ++ sd by simp]
    rw [List.drop_left' (by simp)]
  unfold parseContentKey jsIndexOfChar
  rw [show (⟨cd ++ '/' :: sd⟩ : String).data = cd ++ '/' :: sd from rfl, hidx]
  show ParsedContentKey.mk (jsSlice ⟨cd ++ '/' :: sd⟩ 0 ((cd.length : Nat) : Int))
      (jsSliceFrom ⟨cd ++ '/' :: sd⟩ (((cd.length : Nat) : Int) + 1))
    = { collection := ⟨cd⟩, slug := ⟨sd⟩ }
  rw [hcol, hslug]

/-- Witness for C9 at a concrete input whose slug itself contains `/`. -/
theorem contentKey_roundtrip_witness :
    parseContentKey (generateContentKey "posts" "2020/a")
      = { collection := "posts", slug := "2020/a" } :=
  contentKey_roundtrip "posts" "2020/a" (by decide)

/-- Claim C10: at the validation boundary, an `Asset` whose `content` is
the empty string passes (its `content` rule is `Joi.string().allow('')`),
while a `DataFile` whose `raw` is the empty string always fails (its `raw`
rule is a required string, which rejects `''`) — an empty media file
validates, an empty content document does not. -/
theorem emptyAsset_passes_emptyRaw_fails (repoPath albl dlbl : String)
    (a : VAsset) (d : VDataFile) :
    (∀ p, a.path = some p → p ≠ "" → pathTraversalCheck repoPath p = true →
      a.encoding = some "base64" → a.content = some "" →
      checkVAsset repoPath albl a = none) ∧
    (d.raw = some "" → checkVDataFile repoPath dlbl d ≠ none) := by
  constructor
  · rintro p hp hpne hck henc hc
    simp [checkVAsset, hp, henc, hc, checkPath, checkOptionalPath, checkEncoding,
      checkContent, firstErr, hpne, hck]
  · intro hr
    unfold checkVDataFile
    rcases h1 : checkRequiredString (dlbl ++ ".slug") d.slug with _ | e1
    · rcases h2 : checkPath repoPath (dlbl ++ ".path") d.path with _ | e2
      · simp [firstErr, h1, h2, hr, checkRequiredString]
      · simp [firstErr, h1, h2]
    · simp [firstErr, h1]

/-- Witness for C10: a concrete empty-content asset passes, a concrete
empty-raw data file fails. -/
theorem emptyAsset_passes_emptyRaw_fails_witness :
    checkVAsset "/repo" "params.asset"
      { path := some "img/a.png", content := some "", encoding := some "base64" } = none ∧
    checkVDataFile "/repo" "params.dataFiles[0]"
      { slug := some "s", path := some "a.md", raw := some "", newPath := none } ≠ none :=
  ⟨(emptyAsset_passes_emptyRaw_fails "/repo" "params.asset" "x"
      { path := some "img/a.png", content := some "", encoding := some "base64" }
      {}).1 "img/a.png" rfl (by decide) (by decide) rfl rfl,
   (emptyAsset_passes_emptyRaw_fails "/repo" "x" "params.dataFiles[0]"
      {}
      { slug := some "s", path := some "a.md", raw := some "", newPath := none }).2 rfl⟩

/-- Claim C8 (amended): a request whose action is outside the allowed list
is rejected by the validation middleware: status 422 with Joi's message
that `action` must be one of the allowed action names, and the git
middleware — and with it the mutex — is never reached: the server state
(lock count, lock transitions, world) comes back untouched.  The
dispatcher's own "Unknown action" branch sits behind the validator and is
unreachable for such requests. -/
theorem unknown_action_rejected_at_validation (faults : Faults) (rp : String)
    (req : Body) (a : String) (s : MWState)
    (ha : req.action = some a) (hu : allowedActions.contains a = false) :
    handleApiV1 faults rp req s
      = ({ status := 422
           body := RespBody.errorBody (JoiErr.notOneOf "action" allowedActions).message }, s) := by
  have hmem : a ∉ allowedActions := by
    intro hm
    have := List.elem_eq_true_of_mem hm
    rw [show allowedActions.contains a = allowedActions.elem a from rfl] at hu
    rw [this] at hu
    exact Bool.noConfusion hu
  unfold handleApiV1 validateBody
  rw [ha]
  simp [hmem]

/-- Witness for the amended C8 theorem at the scenario input. -/
theorem unknown_action_rejected_witness :
    handleApiV1 noFaults "/repo" frobnicateReq exampleState
      = ({ status := 422
           body := RespBody.errorBody (JoiErr.notOneOf "action" allowedActions).message },
         exampleState) :=
  unknown_action_rejected_at_validation noFaults "/repo" frobnicateReq "frobnicate"
    exampleState rfl (by decide)

/-- Claim C8 (counterexample): for the `"frobnicate"` scenario the server
does answer 422 without ever touching the lock, but the message is Joi's
whitelist message — the words "Unknown action" appear nowhere in it, so
the claimed "Unknown action" response message is not what the server
sends. -/
theorem frobnicate_message_not_unknown_action :
    (handleApiV1 noFaults "/repo" frobnicateReq exampleState).1
      = { status := 422
          body := RespBody.errorBody ("\"action\" must be one of [info, entriesByFolder, entriesByFiles, getEntry, persistEntry, getMedia, getMediaFile, persistMedia, deleteFile, deleteFiles, getDeployPreview]") } ∧
    (handleApiV1 noFaults "/repo" frobnicateReq exampleState).2.events = [] ∧
    (handleApiV1 noFaults "/repo" frobnicateReq exampleState).2.lockCount = 0 ∧
    containsSub "Unknown action".data
      ("\"action\" must be one of [info, entriesByFolder, entriesByFiles, getEntry, persistEntry, getMedia, getMediaFile, persistMedia, deleteFile, deleteFiles, getDeployPreview]").data
      = false := by
  exact ⟨rfl, rfl, rfl, by decide⟩

/-! ### Interleaving lemmas for the `commitEntry` scheduler -/

/-- Each primitive appends itself to the trace. -/
theorem execPrim_trace (s : RunState) (p : Prim) : (execPrim s p).trace = s.trace ++ [p] := by
  cases p <;> rfl

/-- A sequential run appends its whole program to the trace. -/
theorem execAll_trace (ps : List Prim) (s : RunState) :
    (execAll ps s).trace = s.trace ++ ps := by
  induction ps generalizing s with
  | nil => simp [execAll]
  | cons p ps ih =>
    show (execAll ps (execPrim s p)).trace = _
    rw [ih, execPrim_trace, List.append_assoc]
    rfl

/-- Any scheduled run emits some interleaving `E` of the main continuation
and the pending tasks: `E` is a permutation of `main ++ tasks` that
preserves the inner order of each side. -/
theorem runSched_trace (sched : List Bool) (main tasks : List Prim) (s : RunState) :
    ∃ E, (runSched sched main tasks s).trace = s.trace ++ E ∧
      E.Perm (main ++ tasks) ∧ List.Sublist main E ∧ List.Sublist tasks E := by
  induction sched generalizing main tasks s with
  | nil =>
    refine ⟨main ++ tasks, ?_, List.Perm.refl _,
      List.sublist_append_left _ _, List.sublist_append_right _ _⟩
    show (execAll tasks (execAll main s)).trace = _
    rw [execAll_trace, execAll_trace, List.append_assoc]
  | cons b r ih =>
    cases b with
    | true =>
      cases main with
      | nil => exact ih [] tasks s
      | cons p ms =>
        obtain ⟨E, h1, h2, h3, h4⟩ := ih ms tasks (execPrim s p)
        refine ⟨p :: E, ?_, ?_, ?_, ?_⟩
        · show (runSched r ms tasks (execPrim s p)).trace = _
          rw [h1, execPrim_trace, List.append_assoc]
          rfl
        · exact h2.cons p
        · exact h3.cons₂ p
        · exact h4.cons p
    | false =>
      cases tasks with
      | nil => exact ih main [] s
      | cons q qs =>
        obtain ⟨E, h1, h2, h3, h4⟩ := ih main qs (execPrim s q)
        refine ⟨q :: E, ?_, ?_, ?_, ?_⟩
        · show (runSched r main qs (execPrim s q)).trace = _
          rw [h1, execPrim_trace, List.append_assoc]
          rfl
        · exact ((h2.cons q).trans List.perm_middle.symm)
        · exact h3.cons q
        · exact h4.cons₂ q

/-- Claim C5: in every schedule of a `commitEntry` run, the trace starts
with exactly the awaited writes (every data file's content, then every
asset), the remainder contains no further write, and the renames realized
in the remainder are exactly one `move(path, newPath)` per data file, in
order, when every data file carries a truthy `newPath` — and none at all
when at least one data file lacks one (all-or-none gating; each rename
therefore executes only after every content write, in particular after its
own file's). -/
theorem commitEntry_rename_gating (rp : String) (dataFiles : List DataFile)
    (assets : List Asset) (msg : String) (sched : List Bool) (s0 : RunState) :
    ∃ rest,
      (commitEntryRun rp dataFiles assets msg sched s0).trace
        = s0.trace ++ commitEntryWrites rp dataFiles assets ++ rest ∧
      rest.filter Prim.isWrite = [] ∧
      rest.filter Prim.isMove
        = (if dataFiles.all (fun d => jsTruthyStr d.newPath)
           then dataFiles.map (fun d =>
             Prim.moveTask (pathJoin rp d.path) (pathJoin rp (d.newPath.getD "")))
           else []) := by
  obtain ⟨E, h1, h2, h3, h4⟩ := runSched_trace sched [Prim.gitAdd, Prim.gitCommit msg]
    (commitEntryMoves rp dataFiles) (execAll (commitEntryWrites rp dataFiles assets) s0)
  have hmoves : ∀ e ∈ commitEntryMoves rp dataFiles, Prim.isMove e = true := by
    intro e he
    unfold commitEntryMoves at he
    split at he
    · obtain ⟨d, _, rfl⟩ := List.mem_map.mp he
      rfl
    · cases he
  have hnowrite : ∀ e ∈ commitEntryMoves rp dataFiles, Prim.isWrite e = false := by
    intro e he
    unfold commitEntryMoves at he
    split at he
    · obtain ⟨d, _, rfl⟩ := List.mem_map.mp he
      rfl
    · cases he
  have htasksM : (commitEntryMoves rp dataFiles).filter Prim.isMove
      = commitEntryMoves rp dataFiles := List.filter_eq_self.mpr hmoves
  have htasksW : (commitEntryMoves rp dataFiles).filter Prim.isWrite = [] :=
    List.filter_eq_nil_iff.mpr (fun a ha => by simp [hnowrite a ha])
  refine ⟨E, ?_, ?_, ?_⟩
  · rw [show (commitEntryRun rp dataFiles assets msg sched s0).trace
        = (runSched sched [Prim.gitAdd, Prim.gitCommit msg] (commitEntryMoves rp dataFiles)
            (execAll (commitEntryWrites rp dataFiles assets) s0)).trace from rfl]
    rw [h1, execAll_trace]
  · have hpermW := h2.filter Prim.isWrite
    rw [List.filter_append, htasksW, List.append_nil,
      show List.filter Prim.isWrite [Prim.gitAdd, Prim.gitCommit msg] = [] from rfl] at hpermW
    exact List.eq_nil_of_length_eq_zero hpermW.length_eq
  · have hpermM := h2.filter Prim.isMove
    rw [List.filter_append, htasksM,
      show List.filter Prim.isMove [Prim.gitAdd, Prim.gitCommit msg] = [] from rfl,
      List.nil_append] at hpermM
    have hsub : List.Sublist (commitEntryMoves rp dataFiles) (E.filter Prim.isMove) := by
      have hs := h4.filter Prim.isMove
      rwa [htasksM] at hs
    have heq : commitEntryMoves rp dataFiles = E.filter Prim.isMove :=
      hsub.eq_of_length hpermM.length_eq.symm
    rw [← heq]
    rfl

/-! ### Branch-preservation lemmas for the middleware handlers -/

/-- Unfolding of the `MW` monad's bind. -/
theorem MW_bind_def (m : MW α) (f : α → MW β) (w : World) :
    (m >>= f) w
      = match m w with
        | (Except.ok a, w1) => f a w1
        | (Except.error e, w1) => (Except.error e, w1) := rfl

theorem preservesBranches_pure (a : α) : PreservesBranches (pure a : MW α) :=
  fun _ => rfl

theorem preservesBranches_throw (e : String) : PreservesBranches (throwMW e : MW α) :=
  fun _ => rfl

theorem preservesBranches_reqField (v : Option α) : PreservesBranches (reqFieldMW v) := by
  cases v <;> exact fun _ => rfl

theorem preservesBranches_bind {m : MW α} {f : α → MW β}
    (hm : PreservesBranches m) (hf : ∀ a, PreservesBranches (f a)) :
    PreservesBranches (m >>= f) := by
  intro w
  rw [MW_bind_def]
  rcases hmw : m w with ⟨r, w1⟩
  have h1 := hm w
  rw [hmw] at h1
  cases r with
  | ok a => exact (hf a w1).trans h1
  | error e => exact h1

theorem preservesBranches_checkout (faults : Faults) (b : String) :
    PreservesBranches (checkoutMW faults b) := by
  intro w
  unfold checkoutMW
  split
  · rfl
  · split <;> rfl

theorem preservesBranches_getCurrent (faults : Faults) :
    PreservesBranches (getCurrentBranchMW faults) := by
  intro w
  unfold getCurrentBranchMW
  split <;> rfl

theorem preservesBranches_gitAdd (faults : Faults) :
    PreservesBranches (gitAddMW faults) := by
  intro w
  unfold gitAddMW
  split <;> rfl

theorem preservesBranches_gitCommit (faults : Faults) (msg : Option String) :
    PreservesBranches (gitCommitMW faults msg) := by
  intro w
  cases msg with
  | none => rfl
  | some m => by_cases hg : faults.gitCommit <;> simp [gitCommitMW, hg]

theorem preservesBranches_commit (faults : Faults) (msg : Option String) :
    PreservesBranches (commitMW faults msg) :=
  preservesBranches_bind (preservesBranches_gitAdd faults)
    (fun _ => preservesBranches_gitCommit faults msg)

theorem preservesBranches_writeFile (faults : Faults) (p c : String) :
    PreservesBranches (writeFileMW faults p c) := by
  intro w
  unfold writeFileMW
  split <;> rfl

theorem preservesBranches_deleteFile (rp p : String) :
    PreservesBranches (deleteFileMW rp p) :=
  fun _ => rfl

theorem preservesBranches_listRepoFiles (rp folder extension : String) (depth : Int) :
    PreservesBranches (listRepoFilesMW rp folder extension depth) :=
  fun _ => rfl

theorem preservesBranches_spawnMove (a b : String) :
    PreservesBranches (spawnMoveMW a b) :=
  fun _ => rfl

theorem preservesBranches_readEntry (faults : Faults) (rp : String) (a : JsStrArg) :
    PreservesBranches (readEntryMW faults rp a) := by
  cases a with
  | notStr => exact fun _ => rfl
  | str p =>
    intro w
    unfold readEntryMW
    split <;> rfl

theorem preservesBranches_entriesFromFiles (faults : Faults) (rp : String)
    (args : List JsStrArg) : PreservesBranches (entriesFromFilesMW faults rp args) := by
  induction args with
  | nil => exact preservesBranches_pure []
  | cons a rest ih =>
    exact preservesBranches_bind (preservesBranches_readEntry faults rp a)
      (fun e => preservesBranches_bind ih
        (fun es => preservesBranches_pure (e :: es)))

theorem preservesBranches_readMediaFile (faults : Faults) (rp : String)
    (p : Option String) : PreservesBranches (readMediaFileMW faults rp p) := by
  refine preservesBranches_bind (preservesBranches_reqField p) (fun ps => ?_)
  intro w
  show ((if faults.read then _ else _ : Except String MediaFile × World)).2.git.branches = _
  split <;> rfl

theorem preservesBranches_getMediaFunc (rp : String) (mediaFolder : Option String) :
    PreservesBranches (getMediaFunc rp mediaFolder) := by
  refine preservesBranches_bind (preservesBranches_reqField mediaFolder) (fun mf => ?_)
  refine preservesBranches_bind (preservesBranches_listRepoFiles rp mf "" 1) (fun files => ?_)
  cases files with
  | nil => exact preservesBranches_pure []
  | cons f fs => exact preservesBranches_throw _

theorem preservesBranches_writeDataFile (faults : Faults) (rp : String)
    (d : Option VDataFile) : PreservesBranches (writeDataFileMW faults rp d) := by
  refine preservesBranches_bind (preservesBranches_reqField d) (fun df => ?_)
  refine preservesBranches_bind (preservesBranches_reqField df.path) (fun p => ?_)
  refine preservesBranches_bind (preservesBranches_reqField df.raw) (fun r => ?_)
  exact preservesBranches_writeFile faults (pathJoin rp p) r

theorem preservesBranches_writeDataFiles (faults : Faults) (rp : String)
    (ds : List (Option VDataFile)) : PreservesBranches (writeDataFilesMW faults rp ds) := by
  induction ds with
  | nil => exact preservesBranches_pure ()
  | cons d rest ih =>
    exact preservesBranches_bind (preservesBranches_writeDataFile faults rp d) (fun _ => ih)

theorem preservesBranches_writeAsset (faults : Faults) (rp : String) (a : VAsset) :
    PreservesBranches (writeAssetMW faults rp a) := by
  refine preservesBranches_bind (preservesBranches_reqField a.path) (fun p => ?_)
  refine preservesBranches_bind (preservesBranches_reqField a.content) (fun c => ?_)
  exact preservesBranches_writeFile faults (pathJoin rp p) c

theorem preservesBranches_writeAssets (faults : Faults) (rp : String) (as_ : List VAsset) :
    PreservesBranches (writeAssetsMW faults rp as_) := by
  induction as_ with
  | nil => exact preservesBranches_pure ()
  | cons a rest ih =>
    exact preservesBranches_bind (preservesBranches_writeAsset faults rp a) (fun _ => ih)

theorem preservesBranches_spawnMoves (rp : String) (ds : List VDataFile) :
    PreservesBranches (spawnMovesMW rp ds) := by
  induction ds with
  | nil => exact preservesBranches_pure ()
  | cons d rest ih =>
    exact preservesBranches_bind (preservesBranches_spawnMove _ _) (fun _ => ih)

theorem preservesBranches_reqAll (ds : List (Option VDataFile)) :
    PreservesBranches (reqAllMW ds) := by
  induction ds with
  | nil => exact preservesBranches_pure []
  | cons d rest ih =>
    exact preservesBranches_bind (preservesBranches_reqField d)
      (fun df => preservesBranches_bind ih (fun l => preservesBranches_pure (df :: l)))

theorem preservesBranches_commitEntry (faults : Faults) (rp : String)
    (dataFiles : List (Option VDataFile)) (assets : Option (List VAsset))
    (msg : Option String) :
    PreservesBranches (commitEntryMW faults rp dataFiles assets msg) := by
  refine preservesBranches_bind (preservesBranches_writeDataFiles faults rp dataFiles)
    (fun _ => ?_)
  refine preservesBranches_bind (preservesBranches_reqField assets) (fun as_ => ?_)
  refine preservesBranches_bind (preservesBranches_writeAssets faults rp as_) (fun _ => ?_)
  refine preservesBranches_bind (preservesBranches_reqAll dataFiles) (fun ds => ?_)
  show PreservesBranches (if (ds.all fun d => jsTruthyStr d.newPath) = true then
      spawnMovesMW rp ds >>= fun _ => commitMW faults msg
    else pure () >>= fun _ => commitMW faults msg)
  split
  · exact preservesBranches_bind (preservesBranches_spawnMoves rp ds)
      (fun _ => preservesBranches_commit faults msg)
  · exact preservesBranches_bind (preservesBranches_pure ())
      (fun _ => preservesBranches_commit faults msg)

theorem preservesBranches_deleteAll (rp : String) (ps : List String) :
    PreservesBranches (deleteAllMW rp ps) := by
  induction ps with
  | nil => exact preservesBranches_pure ()
  | cons p rest ih =>
    exact preservesBranches_bind (preservesBranches_deleteFile rp p) (fun _ => ih)

theorem preservesBranches_entriesByFolderFunc (faults : Faults) (rp : String)
    (params : VParams) : PreservesBranches (entriesByFolderFunc faults rp params) := by
  refine preservesBranches_bind (preservesBranches_reqField params.folder) (fun f => ?_)
  refine preservesBranches_bind (preservesBranches_listRepoFiles _ _ _ _) (fun files => ?_)
  exact preservesBranches_entriesFromFiles faults rp _

theorem preservesBranches_entriesByFilesFunc (faults : Faults) (rp : String)
    (params : VParams) : PreservesBranches (entriesByFilesFunc faults rp params) := by
  refine preservesBranches_bind (preservesBranches_reqField params.files) (fun fs_ => ?_)
  exact preservesBranches_entriesFromFiles faults rp _

theorem preservesBranches_persistEntryFunc (faults : Faults) (rp : String)
    (params : VParams) : PreservesBranches (persistEntryFunc faults rp params) := by
  refine preservesBranches_bind (preservesBranches_reqField params.options) (fun opts => ?_)
  exact preservesBranches_commitEntry faults rp _ _ _

theorem preservesBranches_persistMediaFunc (faults : Faults) (rp : String)
    (params : VParams) (cm : Option String) :
    PreservesBranches (persistMediaFunc faults rp params cm) := by
  refine preservesBranches_bind (preservesBranches_reqField params.asset) (fun a => ?_)
  refine preservesBranches_bind (preservesBranches_writeAsset faults rp a) (fun _ => ?_)
  refine preservesBranches_bind (preservesBranches_commit faults cm) (fun _ => ?_)
  exact preservesBranches_readMediaFile faults rp a.path

theorem preservesBranches_deleteFileFunc (faults : Faults) (rp : String)
    (params : VParams) (cm : Option String) :
    PreservesBranches (deleteFileFunc faults rp params cm) := by
  refine preservesBranches_bind (preservesBranches_reqField params.path) (fun fp => ?_)
  refine preservesBranches_bind (preservesBranches_deleteFile rp fp) (fun _ => ?_)
  exact preservesBranches_commit faults cm

theorem preservesBranches_deleteFilesFunc (faults : Faults) (rp : String)
    (params : VParams) (cm : Option String) :
    PreservesBranches (deleteFilesFunc faults rp params cm) := by
  refine preservesBranches_bind (preservesBranches_reqField params.paths) (fun ps => ?_)
  refine preservesBranches_bind (preservesBranches_deleteAll rp ps) (fun _ => ?_)
  exact preservesBranches_commit faults cm

/-! ### Branch restoration -/

/-- The branch guard restores the entry branch: whatever `func` does
(succeed or throw) and whether or not the checkout to the target branch
itself fails, the `finally`'s checkout puts the repository back on the
branch captured at entry — provided that branch still exists (handlers
never touch the branch list) and its restoring checkout is not itself the
failing git call. -/
theorem runOnBranch_restores (faults : Faults) (branch : Option String) (func : MW α)
    (w : World)
    (hmem : w.git.branches.contains w.git.current = true)
    (hfault : faults.checkout w.git.current = false)
    (hfunc : PreservesBranches func) :
    (((runOnBranchMW faults branch func) w).2).git.current = w.git.current := by
  unfold runOnBranchMW getCurrentBranchMW
  by_cases hbl : faults.branchLocal
  · rw [hbl]
    rfl
  · simp only [hbl, Bool.false_eq_true, if_false]
    have hbranches : (if (some w.git.current == branch) = false then
        match checkoutMW faults (branch.getD "undefined") w with
        | (Except.ok _, wc) => func wc
        | (Except.error e, wc) => (Except.error e, wc)
      else func w).2.git.branches = w.git.branches := by
      split
      · rcases hc : checkoutMW faults (branch.getD "undefined") w with ⟨rc, wc⟩
        have hcb : wc.git.branches = w.git.branches := by
          have hp := preservesBranches_checkout faults (branch.getD "undefined") w
          rw [hc] at hp
          exact hp
        cases rc with
        | ok u => exact (hfunc wc).trans hcb
        | error e => exact hcb
      · exact hfunc w
    rcases htry : (if (some w.git.current == branch) = false then
        match checkoutMW faults (branch.getD "undefined") w with
        | (Except.ok _, wc) => func wc
        | (Except.error e, wc) => (Except.error e, wc)
      else func w) with ⟨tryResult, w2⟩
    rw [htry] at hbranches
    rw [htry]
    show (match checkoutMW faults w.git.current w2 with
      | (Except.ok _, w3) => (tryResult, w3)
      | (Except.error e, w3) => (Except.error e, w3)).2.git.current = w.git.current
    unfold checkoutMW
    rw [hfault]
    simp only [Bool.false_eq_true, if_false]
    rw [hbranches, hmem]
    simp

/-- Threading a world-preserving field extraction in front of a
current-branch-preserving continuation preserves the current branch. -/
theorem reqField_bind_current (v : Option β) (k : β → MW γ) (w : World)
    (hk : ∀ b, (((k b) w).2).git.current = w.git.current) :
    (((reqFieldMW v >>= k) w).2).git.current = w.git.current := by
  rw [MW_bind_def]
  cases v with
  | none => rfl
  | some b => exact hk b

/-- A dispatcher case of the shape `runOnBranch(...) then respond`
preserves the current branch under the restoration hypotheses. -/
theorem run_then_pure_current (faults : Faults) (branch : Option String)
    (func : MW α) (resp : α → Response) (w : World)
    (hmem : w.git.branches.contains w.git.current = true)
    (hfault : faults.checkout w.git.current = false)
    (hfunc : PreservesBranches func) :
    (((runOnBranchMW faults branch func >>= fun x => pure (resp x)) w).2).git.current
      = w.git.current := by
  rw [MW_bind_def]
  rcases hr : runOnBranchMW faults branch func w with ⟨r, w2⟩
  have hres := runOnBranch_restores faults branch func w hmem hfault hfunc
  rw [hr] at hres
  cases r with
  | ok a => exact hres
  | error e => exact hres

/-- The dispatcher preserves the current branch on every action, for every
handler outcome, under the restoration hypotheses. -/
theorem dispatch_current (faults : Faults) (rp : String) (req : Body)
    (params : VParams) (w : World)
    (hmem : w.git.branches.contains w.git.current = true)
    (hfault : faults.checkout w.git.current = false) :
    (((dispatchMW faults rp req params) w).2).git.current = w.git.current := by
  unfold dispatchMW
  by_cases h1 : (req.action == some "entriesByFolder") = true
  · rw [if_pos h1]
    exact run_then_pure_current faults params.branch _ _ w hmem hfault
      (preservesBranches_entriesByFolderFunc faults rp params)
  rw [if_neg h1]
  by_cases h2 : (req.action == some "entriesByFiles") = true
  · rw [if_pos h2]
    exact run_then_pure_current faults params.branch _ _ w hmem hfault
      (preservesBranches_entriesByFilesFunc faults rp params)
  rw [if_neg h2]
  by_cases h3 : (req.action == some "getEntry") = true
  · rw [if_pos h3]
    exact run_then_pure_current faults params.branch _ _ w hmem hfault
      (preservesBranches_entriesFromFiles faults rp (getEntryArgs params))
  rw [if_neg h3]
  by_cases h4 : (req.action == some "persistEntry") = true
  · rw [if_pos h4]
    exact run_then_pure_current faults params.branch _ _ w hmem hfault
      (preservesBranches_persistEntryFunc faults rp params)
  rw [if_neg h4]
  by_cases h5 : (req.action == some "getMedia") = true
  · rw [if_pos h5]
    exact run_then_pure_current faults params.branch _ _ w hmem hfault
      (preservesBranches_getMediaFunc rp params.mediaFolder)
  rw [if_neg h5]
  by_cases h6 : (req.action == some "getMediaFile") = true
  · rw [if_pos h6]
    exact run_then_pure_current faults params.branch _ _ w hmem hfault
      (preservesBranches_readMediaFile faults rp params.path)
  rw [if_neg h6]
  by_cases h7 : (req.action == some "persistMedia") = true
  · rw [if_pos h7]
    refine reqField_bind_current params.options _ w (fun opts => ?_)
    exact run_then_pure_current faults params.branch _ _ w hmem hfault
      (preservesBranches_persistMediaFunc faults rp params opts.commitMessage)
  rw [if_neg h7]
  by_cases h8 : (req.action == some "deleteFile") = true
  · rw [if_pos h8]
    refine reqField_bind_current params.options _ w (fun opts => ?_)
    exact run_then_pure_current faults params.branch _ _ w hmem hfault
      (preservesBranches_deleteFileFunc faults rp params opts.commitMessage)
  rw [if_neg h8]
  by_cases h9 : (req.action == some "deleteFiles") = true
  · rw [if_pos h9]
    refine reqField_bind_current params.options _ w (fun opts => ?_)
    exact run_then_pure_current faults params.branch _ _ w hmem hfault
      (preservesBranches_deleteFilesFunc faults rp params opts.commitMessage)
  rw [if_neg h9]
  by_cases h10 : (req.action == some "getDeployPreview") = true
  · rw [if_pos h10]
    rfl
  rw [if_neg h10]
  rfl

/-- The whole `try` body preserves the current branch. -/
theorem tryBody_current (faults : Faults) (rp : String) (req : Body) (w : World)
    (hmem : w.git.branches.contains w.git.current = true)
    (hfault : faults.checkout w.git.current = false) :
    (((tryBodyMW faults rp req) w).2).git.current = w.git.current := by
  unfold tryBodyMW
  split
  · rfl
  · refine reqField_bind_current req.params _ w (fun ps => ?_)
    rw [MW_bind_def]
    rcases hbe : isBranchExistsMW faults ps.branch w with ⟨rb, wb⟩
    have hwb : wb = w := by
      have hp : (isBranchExistsMW faults ps.branch w).2 = w := by
        unfold isBranchExistsMW
        split <;> rfl
      rw [hbe] at hp
      exact hp
    rw [hwb]
    cases rb with
    | error e => rfl
    | ok b =>
      show ((if (b = false) then
          (pure ⟨422, RespBody.errorBody
            ("Default branch '" ++ ps.branch.getD "undefined" ++ "' doesn't exist")⟩ : MW Response)
        else dispatchMW faults rp req ps) w).2.git.current = w.git.current
      split
      · rfl
      · exact dispatch_current faults rp req ps w hmem hfault

/-- Claim C1: for every request (any action, `info` included), every
handler outcome and every combination of git/filesystem failures, the
repository's current branch observed after the request equals the current
branch observed immediately before it — `runOnBranch` captures the branch
at entry and checks it back out on every exit path, so branch switches are
never visible across request boundaries.  Hypotheses: the entry branch
exists (handlers never delete branches) and the restoring checkout itself
is not the failing git call (a restoration failure is the one case the
claim's outcome enumeration excludes). -/
theorem localGit_branch_restored (faults : Faults) (rp : String) (req : Body)
    (s : MWState)
    (hmem : s.world.git.branches.contains s.world.git.current = true)
    (hfault : faults.checkout s.world.git.current = false) :
    (((localGitRequest faults rp req s).2).world).git.current
      = s.world.git.current := by
  unfold localGitRequest
  split
  · rfl
  · rcases hout : tryBodyMW faults rp req s.world with ⟨r, w2⟩
    have hcur := tryBody_current faults rp req s.world hmem hfault
    rw [hout] at hcur
    cases r with
    | ok resp =>
      simp only [localGitRequest, hout]
      simpa using hcur
    | error e =>
      simp only [localGitRequest, hout]
      simpa using hcur

/-- Witness for C1: the `getMedia` scenario request (whose handler throws a
`TypeError`) still comes back on branch `main`. -/
theorem localGit_branch_restored_witness :
    (((localGitRequest noFaults "/repo" getMediaReq exampleState).2).world).git.current
      = exampleState.world.git.current :=
  localGit_branch_restored noFaults "/repo" getMediaReq exampleState rfl rfl

end StaticCmsProxy
